import Mathlib

/-!
# Verification of the FidPromise settlement core (src/lib/fid-promise.js)

Shallow embedding of the promise library.  The mutable object graph of the
JavaScript source is modelled by an explicit machine state:

* `PromiseObj` mirrors a `FidPromise` instance (`state`, `data`,
  `thenCallArray`; `FidPromise` constructor, lines 278-287);
* `Machine` carries the heap of promise objects, the `setTimeout` task queue
  (callNext, lines 137-150), the one-shot latches allocated by `attachTo`
  (the `wasCalled` variables, lines 79-112), and an instrumentation log that
  records every invocation of a registered reaction callback (the
  `fn.call(undefined, parentPromise.data)` site, line 142);
* `exec` is a fuel-indexed interpreter whose operations are the source's
  mutually recursive internal functions `complete`, `callNext`,
  `addCallbacks`, `attachTo` and the running of one queued task.

Foreign thenables are values carrying a script: the list of invocations of
the two callbacks handed to their `then` (and possibly a throw), in the
order the foreign code performs them, synchronously or asynchronously.

The aggregation combinators `when` (lines 434-475) and `after`
(lines 299-346) are embedded as pure functions of the sequence of member
settlements delivered to their registered callbacks (`whenCalls`,
`afterCalls`), emitting the settle calls they perform on the aggregate.

The debug facility (`debugMessage`, `getId`) is purely observational
(it only builds strings and writes to a sink) and is not modelled.
-/

namespace FidPromise

/-- What a foreign thenable does with the two callbacks `attachTo` hands to
its `then` (lines 98-106): invoke the success callback, invoke the failure
callback, or throw out of the `then` call (caught at lines 107-111). -/
inductive FTag where
  | callSuccess : FTag
  | callError : FTag
  | thenThrew : FTag
  deriving DecidableEq

/-- JavaScript values, as far as the promise core distinguishes them.
`promiseRef i` is a reference to the promise object at heap index `i`;
`foreign s` is a foreign thenable whose `then`, once invoked, performs the
scripted callback invocations `s`; `badThen e` is an object whose `then`
property getter throws `e` (the case caught at lines 182-188). -/
inductive Val where
  | undef : Val
  | num : Int → Val
  | str : String → Val
  | typeError : String → Val
  | arr : List Val → Val
  | sparseArr : List (Option Val) → Val
  | promiseRef : Nat → Val
  | foreign : List (FTag × Val) → Val
  | badThen : Val → Val

/-- `getThen` (lines 258-270): returns whether the value exposes a callable
`then`; accessing `.then` on a `badThen` value throws.  A `FidPromise`
instance always has the callable `FidPromise.prototype.then`. -/
def getThen (v : Val) : Except Val Bool :=
  match v with
  | .promiseRef _ => .ok true
  | .foreign _ => .ok true
  | .badThen e => .error e
  | _ => .ok false

/-- The `value === promise` identity test of `complete` (line 170). -/
def isSelf (v : Val) (i : Nat) : Bool :=
  match v with
  | .promiseRef j => j == i
  | _ => false

/-- Whether a value is JavaScript `undefined` (the `result !== undefined`
tests in `when` line 449 and `after` line 327). -/
def Val.isUndef : Val → Bool
  | .undef => true
  | _ => false

/-- A reaction callback slot.  `user f` is a caller-supplied function
(returning a value or throwing one); `adoptResolve l t` and
`adoptReject l t` are the two forwarding closures `attachTo` passes to
another promise's `then` (lines 98-106), sharing the one-shot latch `l`
and targeting promise `t`.  A missing callback (JS non-function) is
`Option.none` in the reaction record. -/
inductive CbK where
  | user : (Val → Except Val Val) → CbK
  | adoptResolve : Nat → Nat → CbK
  | adoptReject : Nat → Nat → CbK

/-- A `thenCall` record (lines 48-52). -/
structure Reaction where
  onSuccess : Option CbK
  onError : Option CbK
  nextPromise : Option Nat

/-- A `FidPromise` instance: `state` (null / true / false), `data`,
`thenCallArray` (constructor, lines 283-285). -/
structure PromiseObj where
  state : Option Bool
  data : Val
  thenCallArray : List Reaction

/-- A pending `setTimeout` entry queued by `callNext` (lines 138-150): the
callback, the parent promise whose `data` it will receive, and the
`nextPromise` of the reaction. -/
structure Task where
  fn : CbK
  parent : Nat
  next : Option Nat

/-- The machine state: promise heap, task queue, `wasCalled` latches, and
the instrumentation log of reaction-callback invocations (parent promise
and argument, appended exactly where line 142 runs `fn.call`). -/
structure Machine where
  heap : List PromiseObj
  tasks : List Task
  latches : List Bool
  log : List (Nat × Val)

/-- Heap read. -/
def getP (m : Machine) (i : Nat) : Option PromiseObj :=
  m.heap[i]?

/-- Heap write at an existing index. -/
def setP (m : Machine) (i : Nat) (p : PromiseObj) : Machine :=
  { m with heap := m.heap.set i p }

/-- The `state` and `data` fields of the promise at `i`. -/
def stateData (m : Machine) (i : Nat) : Option (Option Bool × Val) :=
  (getP m i).map (fun p => (p.state, p.data))

/-- Read latch `l` (`wasCalled`). -/
def getLatch (m : Machine) (l : Nat) : Bool :=
  m.latches[l]?.getD false

/-- Set latch `l` to true (`wasCalled = true`, line 88). -/
def setLatch (m : Machine) (l : Nat) : Machine :=
  { m with latches := m.latches.set l true }

/-- A freshly constructed promise (constructor body, lines 283-285):
`data = []`, `state = null`, `thenCallArray = []`. -/
def newPromiseObj : PromiseObj :=
  ⟨none, .arr [], []⟩

/-- The interpreter's operations: the source's internal functions. -/
inductive Op where
  | complete : Option Nat → Bool → Val → Op
  | callNext : Nat → Reaction → Op
  | addCallbacks : Nat → Reaction → Op
  | attachTo : Nat → Val → Op
  | runTask : Op

/-- The commit half of `complete` (lines 195-200): set `state` to the
boolean of `wasSuccess`, store `value` in `data`, then run `callNext` for
every registered `thenCall` in registration order. -/
def commitB (recur : Machine → Op → Machine) (m : Machine) (i : Nat)
    (p : PromiseObj) (ws : Bool) (v : Val) : Machine :=
  let m1 := setP m i ⟨some ws, v, p.thenCallArray⟩
  p.thenCallArray.foldl (fun mm tc => recur mm (.callNext i tc)) m1

/-- The self-resolution guard of `complete` (lines 170-175): when the value
is the very promise being settled, replace the outcome by a `TypeError`
rejection. -/
def selfGuard (i : Nat) (wasSuccess : Bool) (value : Val) : Bool × Val :=
  if isSelf value i then
    (false, Val.typeError "Can not resolve a promise with itself")
  else (wasSuccess, value)

/-- `complete` (lines 162-201).  Null-promise guard (165); self-resolution
guard (170-175); the already-settled early return (177-180); the guarded
`getThen` probe (182-188; a probe throw falls through to a rejection commit
because `then` stays undefined); adoption of thenables via `attachTo`
(190-193); otherwise the commit (195-200). -/
def completeB (recur : Machine → Op → Machine) (m : Machine)
    (target : Option Nat) (wasSuccess : Bool) (value : Val) : Machine :=
  match target with
  | none => m
  | some i =>
    match getP m i with
    | none => m
    | some p =>
      if p.state.isSome then m
      else
        match getThen (selfGuard i wasSuccess value).2 with
        | .error ex => commitB recur m i p false ex
        | .ok true => recur m (.attachTo i (selfGuard i wasSuccess value).2)
        | .ok false =>
          commitB recur m i p (selfGuard i wasSuccess value).1
            (selfGuard i wasSuccess value).2

/-- JS truthiness of the `state` field (`if (parentPromise.state)`,
line 125): only `true` is truthy; `false` and `null` are falsy. -/
def stBool (p : PromiseObj) : Bool :=
  match p.state with
  | some true => true
  | _ => false

/-- `callNext` (lines 122-151): select the callback matching the parent's
state; if it is not a function, pass the parent's state and data through to
the next promise inline (131-135); otherwise queue a `setTimeout` task
(138-150). -/
def callNextB (recur : Machine → Op → Machine) (m : Machine) (parent : Nat)
    (tc : Reaction) : Machine :=
  match getP m parent with
  | none => m
  | some p =>
    match (if stBool p then tc.onSuccess else tc.onError) with
    | none => recur m (.complete tc.nextPromise (stBool p) p.data)
    | some cb => { m with tasks := m.tasks ++ [⟨cb, parent, tc.nextPromise⟩] }

/-- `addCallbacks` (lines 43-62): push the `thenCall`, and if the promise is
already settled, dispatch the new record via `callNext` (56-59). -/
def addCallbacksB (recur : Machine → Op → Machine) (m : Machine) (i : Nat)
    (tc : Reaction) : Machine :=
  match getP m i with
  | none => m
  | some p =>
    if p.state.isSome then
      recur (setP m i ⟨p.state, p.data, p.thenCallArray ++ [tc]⟩)
        (.callNext i tc)
    else setP m i ⟨p.state, p.data, p.thenCallArray ++ [tc]⟩

/-- `attachTo` (lines 79-112): allocate a fresh `wasCalled` latch; invoke the
other value's `then` with the two forwarding closures.  For another
`FidPromise`, `then` (lines 409-416) allocates a fresh `nextPromise` and
registers the closures via `addCallbacks`.  For a foreign thenable, its
scripted invocations run here, each guarded by the latch (`doubleCheck`,
lines 82-91); a throw out of `then` is caught and, when the latch is still
clear, forwarded as a rejection (107-111). -/
def attachToB (recur : Machine → Op → Machine) (m : Machine) (i : Nat)
    (v : Val) : Machine :=
  match v with
  | .promiseRef k =>
    recur
      { m with latches := m.latches ++ [false],
               heap := m.heap ++ [newPromiseObj] }
      (.addCallbacks k
        ⟨some (.adoptResolve m.latches.length i),
         some (.adoptReject m.latches.length i), some m.heap.length⟩)
  | .foreign script =>
    script.foldl
      (fun mm ev =>
        if getLatch mm m.latches.length then mm
        else
          match ev.1 with
          | .callSuccess =>
            recur (setLatch mm m.latches.length) (.complete (some i) true ev.2)
          | .callError =>
            recur (setLatch mm m.latches.length) (.complete (some i) false ev.2)
          | .thenThrew =>
            recur (setLatch mm m.latches.length) (.complete (some i) false ev.2))
      { m with latches := m.latches ++ [false] }
  | _ => m

/-- Run the oldest queued `setTimeout` closure (lines 138-150): invoke the
stored callback with the parent's current `data` (recording the invocation
in the log), catch a thrown value, and complete the reaction's next promise
with the outcome.  The adoption closures (lines 98-106) consult their latch,
forward to the target promise on first call, and return `undefined`. -/
def runTaskB (recur : Machine → Op → Machine) (m : Machine) : Machine :=
  match m.tasks with
  | [] => m
  | t :: rest =>
    match getP m t.parent with
    | none => { m with tasks := rest }
    | some p =>
      match t.fn with
      | .user f =>
        match f p.data with
        | .ok v =>
          recur { m with tasks := rest, log := m.log ++ [(t.parent, p.data)] }
            (.complete t.next true v)
        | .error e =>
          recur { m with tasks := rest, log := m.log ++ [(t.parent, p.data)] }
            (.complete t.next false e)
      | .adoptResolve l tgt =>
        if getLatch m l then
          recur { m with tasks := rest, log := m.log ++ [(t.parent, p.data)] }
            (.complete t.next true .undef)
        else
          recur
            (recur
              (setLatch { m with tasks := rest,
                                 log := m.log ++ [(t.parent, p.data)] } l)
              (.complete (some tgt) true p.data))
            (.complete t.next true .undef)
      | .adoptReject l tgt =>
        if getLatch m l then
          recur { m with tasks := rest, log := m.log ++ [(t.parent, p.data)] }
            (.complete t.next true .undef)
        else
          recur
            (recur
              (setLatch { m with tasks := rest,
                                 log := m.log ++ [(t.parent, p.data)] } l)
              (.complete (some tgt) false p.data))
            (.complete t.next true .undef)

/-- Fuel-indexed interpreter tying the operations together.  Fuel only
bounds the recursion depth of the embedding; every source execution is
reproduced by a large enough fuel. -/
def exec : Nat → Machine → Op → Machine
  | 0, m, _ => m
  | fuel + 1, m, Op.complete t ws v => completeB (exec fuel) m t ws v
  | fuel + 1, m, Op.callNext parent tc => callNextB (exec fuel) m parent tc
  | fuel + 1, m, Op.addCallbacks i tc => addCallbacksB (exec fuel) m i tc
  | fuel + 1, m, Op.attachTo i v => attachToB (exec fuel) m i v
  | fuel + 1, m, Op.runTask => runTaskB (exec fuel) m

/-- `FidPromise.prototype.resolve` (lines 386-388). -/
def resolveCall (fuel : Nat) (m : Machine) (i : Nat) (v : Val) : Machine :=
  exec fuel m (.complete (some i) true v)

/-- `FidPromise.prototype.reject` (lines 375-377). -/
def rejectCall (fuel : Nat) (m : Machine) (i : Nat) (v : Val) : Machine :=
  exec fuel m (.complete (some i) false v)

/-- `FidPromise.prototype.then` (lines 409-416): allocate a fresh
`nextPromise`, register the callbacks, return the new promise's index. -/
def thenMethod (fuel : Nat) (m : Machine) (i : Nat)
    (onS onE : Option CbK) : Machine × Nat :=
  let j := m.heap.length
  let m1 : Machine := { m with heap := m.heap ++ [newPromiseObj] }
  (exec fuel m1 (.addCallbacks i ⟨onS, onE, some j⟩), j)

/-- `new FidPromise()` (lines 278-287): a fresh pending promise at a fresh
heap index. -/
def FidPromiseNew (m : Machine) : Machine × Nat :=
  ({ m with heap := m.heap ++ [newPromiseObj] }, m.heap.length)

/-- `FidPromise()` called as a plain function: the guard at lines 279-281
(`if (!(this instanceof FidPromise)) return new FidPromise();`) makes the
call return `new FidPromise()`. -/
def FidPromiseAsFunction (m : Machine) : Machine × Nat :=
  FidPromiseNew m

/-! ## Pure model of the `attachTo` latch (lines 79-112)

`attachToCalls` records which settle calls the pair of forwarding closures
makes on the adopting promise, as a function of the sequence of invocations
the foreign thenable performs (synchronously or later): each invocation, and
the catch handler for a throw out of `then`, runs `doubleCheck` on the
shared `wasCalled` latch and forwards only when the latch was clear. -/

/-- The settle call one foreign invocation would forward: the first closure
resolves with the value (line 100), the second rejects (line 104), and the
catch handler rejects with the thrown value (line 109). -/
def tagOutcome (tag : FTag) (v : Val) : Bool × Val :=
  match tag with
  | .callSuccess => (true, v)
  | .callError => (false, v)
  | .thenThrew => (false, v)

/-- Process the foreign invocations against the `wasCalled` latch,
collecting the settle calls actually forwarded to the adopting promise. -/
def doubleCheckFold : Bool → List (FTag × Val) → List (Bool × Val)
  | _, [] => []
  | true, _ :: rest => doubleCheckFold true rest
  | false, ev :: rest => tagOutcome ev.1 ev.2 :: doubleCheckFold true rest

/-- The settle calls `attachTo` forwards for a given foreign behaviour,
starting with a clear latch (line 95). -/
def attachToCalls (script : List (FTag × Val)) : List (Bool × Val) :=
  doubleCheckFold false script

/-! ## Pure models of the aggregation combinators

The combinators only interact with their members through `getThen` probes
and `then` registrations; the registered callbacks mutate the combinator's
local variables and settle the aggregate.  `whenCalls`/`afterCalls` embed
those callback bodies as folds over the sequence of member settlements in
the order they arrive (one arrival per thenable member, delivered on the
task queue), emitting the settle calls performed on the aggregate. -/

/-- One member settlement delivered to a combinator callback: the member's
original position in the input collection, whether it succeeded, and the
value/reason. -/
structure Arrival where
  index : Nat
  success : Bool
  value : Val

/-- Whether `getThen` yields a callable (the `if (getThen(promise))` tests,
lines 321 and 442).  A `badThen` member would make that test itself throw
out of the combinator in JS; such members are outside this model. -/
def isThenable (v : Val) : Bool :=
  match getThen v with
  | .ok true => true
  | _ => false

/-- Number of thenable members, the initial `waitingFor` count.  An `Int`
because the JS counter is a number that the callbacks decrement. -/
def countThenable (members : List Val) : Int :=
  (members.countP isThenable : Nat)

/-- Local state of `when` (lines 434-475): the pending counter, the
`successResults` array, and the settle calls performed on the aggregate. -/
structure WhenState where
  waitingFor : Int
  successResults : List Val
  calls : List (Bool × Val)

/-- The two callbacks `when` registers on each thenable member
(lines 445-464): on success decrement, push a non-`undefined` result, and
resolve with `successResults` when the counter reaches zero; on failure
decrement and immediately reject with that reason. -/
def whenStep (s : WhenState) (a : Arrival) : WhenState :=
  if a.success then
    let w := s.waitingFor - 1
    let res := if a.value.isUndef then s.successResults
      else s.successResults ++ [a.value]
    if w = 0 then ⟨w, res, s.calls ++ [(true, Val.arr res)]⟩
    else ⟨w, res, s.calls⟩
  else
    ⟨s.waitingFor - 1, s.successResults, s.calls ++ [(false, a.value)]⟩

/-- The settle calls `when` performs on the aggregate.  When no member is
thenable the synchronous check (lines 469-472) resolves with
`this.successResults` — a property never assigned on the promise object, so
the resolution value is `undefined`, not the local `successResults` array. -/
def whenCalls (members : List Val) (arrivals : List Arrival) :
    List (Bool × Val) :=
  let n := countThenable members
  (if n = 0 then [(true, Val.undef)] else []) ++
    (arrivals.foldl whenStep ⟨n, [], []⟩).calls

/-- A settle call performed by `after` on its aggregate: resolve with the
(possibly sparse) `successResults` array, or reject with the `failResults`
array. -/
inductive AfterSettle where
  | res : List (Option Val) → AfterSettle
  | rej : List Val → AfterSettle

/-- JS sparse-array assignment `a[i] = v`: set within bounds, otherwise
extend with holes. -/
def setSparse : List (Option Val) → Nat → Val → List (Option Val)
  | [], 0, v => [some v]
  | [], n + 1, v => none :: setSparse [] n v
  | _ :: xs, 0, v => some v :: xs
  | x :: xs, n + 1, v => x :: setSparse xs n v

/-- Reading a JS array slot: `a[i]`, `undefined` for holes and out of
bounds, here `none`. -/
def lookupSparse : List (Option Val) → Nat → Option Val
  | [], _ => none
  | x :: _, 0 => x
  | _ :: xs, n + 1 => lookupSparse xs n

/-- Local state of `after` (lines 299-346): pending counter, the
`endSuccess` flag, the index-addressed `successResults`, the `failResults`
list, and the settle calls performed. -/
structure AfterState where
  waitingFor : Int
  endSuccess : Bool
  successResults : List (Option Val)
  failResults : List Val
  calls : List AfterSettle

/-- `checkCount` (lines 308-318): when the counter is zero, settle the
aggregate — resolve with `successResults` if no failure was recorded,
otherwise reject with `failResults`. -/
def afterCheckCount (s : AfterState) : AfterState :=
  if s.waitingFor = 0 then
    { s with calls := s.calls ++
        [if s.endSuccess then .res s.successResults else .rej s.failResults] }
  else s

/-- The two callbacks `after` registers on each thenable member
(lines 324-339): on success decrement, record a non-`undefined` result at
the member's original index, and `checkCount`; on failure decrement, push
the reason, clear `endSuccess`, and `checkCount`. -/
def afterStep (s : AfterState) (a : Arrival) : AfterState :=
  if a.success then
    afterCheckCount
      ⟨s.waitingFor - 1, s.endSuccess,
        (if a.value.isUndef then s.successResults
         else setSparse s.successResults a.index a.value),
        s.failResults, s.calls⟩
  else
    afterCheckCount
      ⟨s.waitingFor - 1, false, s.successResults,
        s.failResults ++ [a.value], s.calls⟩

/-- The settle calls `after` performs on the aggregate: register on each
thenable member, then run the synchronous `checkCount` (line 344), then
process the arrivals. -/
def afterCalls (members : List Val) (arrivals : List Arrival) :
    List AfterSettle :=
  (arrivals.foldl afterStep
    (afterCheckCount ⟨countThenable members, true, [], [], []⟩)).calls

end FidPromise


namespace FidPromise

/-- The preserved facts between two machine states: every settled promise
keeps its state and value, and every set latch stays set. -/
def PresAt (m m' : Machine) : Prop :=
  (∀ i b d, stateData m i = some (some b, d) →
    stateData m' i = some (some b, d)) ∧
  (∀ l, getLatch m l = true → getLatch m' l = true)

/-- Whether the operation is the running of a queued task. -/
def Op.isRun : Op → Bool
  | .runTask => true
  | _ => false

/-- The machine for the C1 witness: one promise already fulfilled with 7. -/
def exm1 : Machine := ⟨[⟨some true, .num 7, []⟩], [], [], []⟩

/-- The machine for other witnesses: one pending promise. -/
def exm2 : Machine := ⟨[newPromiseObj], [], [], []⟩

/-- A machine holding one promise committed REJECTED with a thenable as its
data — the state reached by `reject`/`resolve` of a value whose `then`
getter throws a thenable: `getThen` throws (line 183), the catch stores the
thrown thenable as the value (lines 184-188), and the commit (lines
195-197) stores it. -/
def exm4 : Machine :=
  ⟨[⟨some false, .foreign [(.callSuccess, .num 42)], []⟩], [], [], []⟩

/-- The values a `when` aggregate collects: the non-`undefined` success
values, in the order the successes arrive. -/
def collectWhen (arrivals : List Arrival) : List Val :=
  (arrivals.map Arrival.value).filter (fun v => !v.isUndef)

/-- The reasons an `after` aggregate collects, in arrival order. -/
def afterFails (arrivals : List Arrival) : List Val :=
  (arrivals.filter (fun a => !a.success)).map Arrival.value

/-- The index-addressed writes `after` performs into `successResults`. -/
def applySets (arrivals : List Arrival) (l : List (Option Val)) :
    List (Option Val) :=
  arrivals.foldl
    (fun acc a =>
      if a.success && !a.value.isUndef then setSparse acc a.index a.value
      else acc) l


/-! ## Heap and latch access lemmas -/

theorem foldl_pres {α : Type} (P : Machine → Prop) (f : Machine → α → Machine)
    (hf : ∀ mm a, P mm → P (f mm a)) :
    ∀ (l : List α) (m : Machine), P m → P (l.foldl f m) := by
  intro l
  induction l with
  | nil => intro m h; exact h
  | cons a l ih => intro m h; exact ih _ (hf _ _ h)

theorem getP_of_stateData {m : Machine} {i : Nat} {b : Bool} {d : Val}
    (h : stateData m i = some (some b, d)) :
    ∃ q, getP m i = some q ∧ q.state = some b ∧ q.data = d := by
  unfold stateData at h
  cases hq : getP m i with
  | none => rw [hq] at h; cases h
  | some q =>
    rw [hq] at h
    simp only [Option.map_some', Option.some.injEq, Prod.mk.injEq] at h
    exact ⟨q, rfl, h.1, h.2⟩

theorem getP_lt {m : Machine} {i : Nat} {p : PromiseObj}
    (h : getP m i = some p) : i < m.heap.length :=
  (List.getElem?_eq_some.mp h).1

theorem getP_setP_self {m : Machine} {i : Nat} {p : PromiseObj}
    (h : getP m i = some p) (q : PromiseObj) :
    getP (setP m i q) i = some q := by
  have hi : i < m.heap.length := getP_lt h
  show (m.heap.set i q)[i]? = some q
  simp [List.getElem?_set_self', hi]

theorem getP_setP_ne {m : Machine} {i j : Nat} (hne : j ≠ i)
    (q : PromiseObj) : getP (setP m j q) i = getP m i :=
  List.getElem?_set_ne hne

theorem stateData_setP_ne {m : Machine} {i j : Nat} (hne : j ≠ i)
    (q : PromiseObj) : stateData (setP m j q) i = stateData m i := by
  unfold stateData
  rw [getP_setP_ne hne]

theorem getP_heapAppend {m : Machine} {i : Nat} {p : PromiseObj}
    (h : getP m i = some p) (l : List PromiseObj) :
    (m.heap ++ l)[i]? = some p := by
  rw [List.getElem?_append_left (getP_lt h)]
  exact h

theorem getLatch_append_true {m : Machine} {l : Nat}
    (h : getLatch m l = true) (bs : List Bool) :
    (m.latches ++ bs)[l]?.getD false = true := by
  unfold getLatch at h
  cases hl : m.latches[l]? with
  | none => rw [hl] at h; cases h
  | some b =>
    rw [hl] at h
    have hlt : l < m.latches.length := (List.getElem?_eq_some.mp hl).1
    rw [List.getElem?_append_left hlt, hl]
    exact h

theorem getLatch_set_true {m : Machine} {l j : Nat}
    (h : getLatch m l = true) :
    (m.latches.set j true)[l]?.getD false = true := by
  unfold getLatch at h
  cases hl : m.latches[l]? with
  | none => rw [hl] at h; cases h
  | some b =>
    by_cases hj : j = l
    · subst hj
      have hlt : j < m.latches.length := (List.getElem?_eq_some.mp hl).1
      simp [List.getElem?_set_self', hlt, hl]
    · rw [List.getElem?_set_ne hj, hl]
      rw [hl] at h
      exact h

/-! ## Master preservation lemma

Proved by induction on fuel: no operation of the interpreter ever changes
the `state` or `data` of an already-settled promise, and no operation
clears a set latch. -/

theorem presAt_rfl (m : Machine) : PresAt m m :=
  ⟨fun _ _ _ h => h, fun _ h => h⟩

theorem presAt_trans {m1 m2 m3 : Machine} (h12 : PresAt m1 m2)
    (h23 : PresAt m2 m3) : PresAt m1 m3 :=
  ⟨fun i b d h => h23.1 i b d (h12.1 i b d h),
   fun l h => h23.2 l (h12.2 l h)⟩

theorem presAt_tasks (m : Machine) (ts : List Task) :
    PresAt m { m with tasks := ts } := presAt_rfl m

theorem presAt_setP_unsettled {m : Machine} {j : Nat} {p : PromiseObj}
    (hj : getP m j = some p) (hps : p.state.isSome = false)
    (q : PromiseObj) : PresAt m (setP m j q) := by
  constructor
  · intro i b d h
    have hne : j ≠ i := by
      intro e
      subst e
      obtain ⟨r, hr, hrs, _⟩ := getP_of_stateData h
      have hpr : p = r := Option.some.inj (hj.symm.trans hr)
      rw [hpr, hrs] at hps
      cases hps
    rw [stateData_setP_ne hne]
    exact h
  · intro l h
    exact h

theorem presAt_latchAlloc (m : Machine) :
    PresAt m { m with latches := m.latches ++ [false] } := by
  constructor
  · intro i b d h; exact h
  · intro l h
    exact getLatch_append_true h [false]

theorem presAt_heapLatchAlloc (m : Machine) :
    PresAt m { m with latches := m.latches ++ [false],
                      heap := m.heap ++ [newPromiseObj] } := by
  constructor
  · intro i b d h
    obtain ⟨q, hq, hqs, hqd⟩ := getP_of_stateData h
    unfold stateData
    have hget : getP { m with latches := m.latches ++ [false],
                              heap := m.heap ++ [newPromiseObj] } i = some q :=
      getP_heapAppend hq [newPromiseObj]
    rw [hget]
    simp [hqs, hqd]
  · intro l h
    exact getLatch_append_true h [false]

theorem presAt_setLatch (m : Machine) (l : Nat) :
    PresAt m (setLatch m l) := by
  constructor
  · intro i b d h; exact h
  · intro j h
    exact getLatch_set_true h

theorem presAt_log (m : Machine) (ts : List Task) (lg : List (Nat × Val)) :
    PresAt m { m with tasks := ts, log := lg } := presAt_rfl m

theorem foldl_presAt {α : Type} (f : Machine → α → Machine) (m0 : Machine)
    (hf : ∀ mm a, PresAt mm (f mm a)) :
    ∀ (l : List α) (m : Machine), PresAt m0 m → PresAt m0 (l.foldl f m) := by
  intro l
  induction l with
  | nil => intro m h; exact h
  | cons a l ih => intro m h; exact ih _ (presAt_trans h (hf m a))

theorem commitB_presAt (recur : Machine → Op → Machine)
    (hr : ∀ mm op, PresAt mm (recur mm op)) (m : Machine) (j : Nat)
    (p : PromiseObj) (ws : Bool) (v : Val)
    (hj : getP m j = some p) (hps : p.state.isSome = false) :
    PresAt m (commitB recur m j p ws v) := by
  show PresAt m
    (p.thenCallArray.foldl (fun mm tc => recur mm (.callNext j tc))
      (setP m j ⟨some ws, v, p.thenCallArray⟩))
  exact foldl_presAt _ m (fun mm tc => hr mm _) _ _
    (presAt_setP_unsettled hj hps _)

theorem exec_presAt : ∀ fuel m op, PresAt m (exec fuel m op) := by
  intro fuel
  induction fuel with
  | zero => intro m op; exact presAt_rfl m
  | succ f ih =>
    intro m op
    cases op with
    | complete t ws v =>
      show PresAt m (completeB (exec f) m t ws v)
      unfold completeB
      split
      · exact presAt_rfl m
      next i =>
        split
        · exact presAt_rfl m
        next p hj =>
          split
          · exact presAt_rfl m
          next hps =>
            have hps' : p.state.isSome = false := by
              cases hb : p.state.isSome
              · rfl
              · exact absurd hb hps
            split
            next ex _ => exact commitB_presAt _ ih m i p false ex hj hps'
            next hok => exact ih m _
            next hok => exact commitB_presAt _ ih m i p _ _ hj hps'
    | callNext parent tc =>
      show PresAt m (callNextB (exec f) m parent tc)
      unfold callNextB
      split
      · exact presAt_rfl m
      next p hp =>
        split
        · exact ih m _
        next cb hcb => exact presAt_tasks m _
    | addCallbacks j tc =>
      show PresAt m (addCallbacksB (exec f) m j tc)
      unfold addCallbacksB
      split
      · exact presAt_rfl m
      next p hj =>
        have hset : ∀ q, getP m j = some q →
            PresAt m (setP m j ⟨q.state, q.data, q.thenCallArray ++ [tc]⟩) := by
          intro q hq
          constructor
          · intro i b d h
            by_cases hne : j = i
            · subst hne
              obtain ⟨r, hr, hrs, hrd⟩ := getP_of_stateData h
              have hqr : q = r := Option.some.inj (hq.symm.trans hr)
              unfold stateData
              rw [getP_setP_self hq]
              subst hqr
              simp [hrs, hrd]
            · rw [stateData_setP_ne hne]
              exact h
          · intro l h; exact h
        split
        · exact presAt_trans (hset p hj) (ih _ _)
        · exact hset p hj
    | attachTo j v =>
      show PresAt m (attachToB (exec f) m j v)
      unfold attachToB
      split
      · exact presAt_trans (presAt_heapLatchAlloc m) (ih _ _)
      next script =>
        refine foldl_presAt _ m ?_ script _ (presAt_latchAlloc m)
        intro mm ev
        by_cases hl : getLatch mm m.latches.length
        · simp only [hl, if_true]
          exact presAt_rfl mm
        · simp only [hl, Bool.false_eq_true, if_false]
          cases hev : ev.1 with
          | callSuccess => exact presAt_trans (presAt_setLatch mm _) (ih _ _)
          | callError => exact presAt_trans (presAt_setLatch mm _) (ih _ _)
          | thenThrew => exact presAt_trans (presAt_setLatch mm _) (ih _ _)
      · exact presAt_rfl m
    | runTask =>
      show PresAt m (runTaskB (exec f) m)
      unfold runTaskB
      split
      · exact presAt_rfl m
      next t rest htasks =>
        split
        · exact presAt_tasks m rest
        next p hp =>
          split
          next fcb hfn =>
            split
            next v hv => exact presAt_trans (presAt_log m _ _) (ih _ _)
            next e he => exact presAt_trans (presAt_log m _ _) (ih _ _)
          next l tgt hfn =>
            split
            next hl => exact presAt_trans (presAt_log m _ _) (ih _ _)
            next hl =>
              refine presAt_trans (presAt_log m rest (m.log ++ [(t.parent, p.data)])) ?_
              refine presAt_trans (presAt_setLatch _ l) ?_
              exact presAt_trans (ih _ _) (ih _ _)
          next l tgt hfn =>
            split
            next hl => exact presAt_trans (presAt_log m _ _) (ih _ _)
            next hl =>
              refine presAt_trans (presAt_log m rest (m.log ++ [(t.parent, p.data)])) ?_
              refine presAt_trans (presAt_setLatch _ l) ?_
              exact presAt_trans (ih _ _) (ih _ _)

/-! ## Log preservation

Only running a queued task appends to the callback-invocation log:
`complete`, `callNext`, `addCallbacks` and `attachTo` never invoke a
registered reaction callback, however deep their inline recursion. -/

theorem commitB_log (recur : Machine → Op → Machine)
    (hr : ∀ mm op, Op.isRun op = false → (recur mm op).log = mm.log)
    (m : Machine) (j : Nat) (p : PromiseObj) (ws : Bool) (v : Val) :
    (commitB recur m j p ws v).log = m.log := by
  show (p.thenCallArray.foldl (fun mm tc => recur mm (.callNext j tc))
      (setP m j ⟨some ws, v, p.thenCallArray⟩)).log = m.log
  refine foldl_pres (fun mm => mm.log = m.log) _ ?_ _ _ rfl
  intro mm tc hmm
  rw [hr mm (Op.callNext j tc) rfl]
  exact hmm

theorem exec_log : ∀ fuel m op, Op.isRun op = false →
    (exec fuel m op).log = m.log := by
  intro fuel
  induction fuel with
  | zero => intro m op _; rfl
  | succ f ih =>
    intro m op hop
    cases op with
    | complete t ws v =>
      show (completeB (exec f) m t ws v).log = m.log
      unfold completeB
      split
      · rfl
      next i =>
        split
        · rfl
        next p hj =>
          split
          · rfl
          next hps =>
            split
            next ex _ => exact commitB_log _ (fun mm op h => ih mm op h) m i p false ex
            next hok => exact ih m _ rfl
            next hok => exact commitB_log _ (fun mm op h => ih mm op h) m i p _ _
    | callNext parent tc =>
      show (callNextB (exec f) m parent tc).log = m.log
      unfold callNextB
      split
      · rfl
      next p hp =>
        split
        · exact ih m _ rfl
        next cb hcb => rfl
    | addCallbacks j tc =>
      show (addCallbacksB (exec f) m j tc).log = m.log
      unfold addCallbacksB
      split
      · rfl
      next p hj =>
        split
        · exact ih _ _ rfl
        · rfl
    | attachTo j v =>
      show (attachToB (exec f) m j v).log = m.log
      unfold attachToB
      split
      · exact ih _ _ rfl
      next script =>
        refine foldl_pres (fun mm => mm.log = m.log) _ ?_ script _ rfl
        intro mm ev hmm
        by_cases hl : getLatch mm m.latches.length
        · simp only [hl, if_true]
          exact hmm
        · simp only [hl, Bool.false_eq_true, if_false]
          cases ev.1 with
          | callSuccess =>
            rw [ih (setLatch mm m.latches.length) (Op.complete (some j) true ev.2) rfl]
            exact hmm
          | callError =>
            rw [ih (setLatch mm m.latches.length) (Op.complete (some j) false ev.2) rfl]
            exact hmm
          | thenThrew =>
            rw [ih (setLatch mm m.latches.length) (Op.complete (some j) false ev.2) rfl]
            exact hmm
      · rfl
    | runTask => cases hop

/-! ## Bridge lemmas for the claim theorems -/

/-- Committing a settlement fixes the promise's state and data; the
dispatch loop cannot change them again. -/
theorem commitB_stateData (fuel : Nat) (m : Machine) (j : Nat)
    (p : PromiseObj) (ws : Bool) (v : Val) (hj : getP m j = some p) :
    stateData (commitB (exec fuel) m j p ws v) j = some (some ws, v) := by
  show stateData
    (p.thenCallArray.foldl (fun mm tc => exec fuel mm (.callNext j tc))
      (setP m j ⟨some ws, v, p.thenCallArray⟩)) j = some (some ws, v)
  refine foldl_pres (fun mm => stateData mm j = some (some ws, v)) _ ?_ _ _ ?_
  · intro mm tc hmm
    exact (exec_presAt fuel mm _).1 j ws v hmm
  · show stateData (setP m j ⟨some ws, v, p.thenCallArray⟩) j = some (some ws, v)
    unfold stateData
    rw [getP_setP_self hj]
    rfl

/-- The dispatch loop of a commit keeps every set latch set. -/
theorem commitB_latch (fuel : Nat) (m : Machine) (j : Nat) (p : PromiseObj)
    (ws : Bool) (v : Val) {l : Nat} (h : getLatch m l = true) :
    getLatch (commitB (exec fuel) m j p ws v) l = true := by
  show getLatch
    (p.thenCallArray.foldl (fun mm tc => exec fuel mm (.callNext j tc))
      (setP m j ⟨some ws, v, p.thenCallArray⟩)) l = true
  refine foldl_pres (fun mm => getLatch mm l = true) _ ?_ _ _ h
  intro mm tc hmm
  exact (exec_presAt fuel mm _).2 l hmm

/-- A value whose `getThen` probe finds no callable `then` is not a promise
reference, so it can never be the promise being settled. -/
theorem isSelf_of_getThen_false {v : Val} (j : Nat)
    (h : getThen v = .ok false) : isSelf v j = false := by
  cases v <;> simp_all [getThen, isSelf]

/-- For a settled promise the truthiness of `state` is its boolean. -/
theorem stBool_some (b : Bool) (d : Val) (tcs : List Reaction) :
    stBool ⟨some b, d, tcs⟩ = b := by
  cases b <;> rfl

/-- A freshly allocated latch reads clear. -/
theorem getLatch_alloc (m : Machine) :
    getLatch { m with latches := m.latches ++ [false] } m.latches.length
      = false := by
  unfold getLatch
  rw [List.getElem?_concat_length]
  rfl

/-- Setting a freshly allocated latch makes it read set. -/
theorem getLatch_alloc_set (m : Machine) :
    getLatch (setLatch { m with latches := m.latches ++ [false] }
      m.latches.length) m.latches.length = true := by
  unfold getLatch setLatch
  have hlt : m.latches.length < (m.latches ++ [false]).length := by
    simp
  simp [List.getElem?_set_self', hlt]

/-- Once the `wasCalled` latch is set, the remaining scripted invocations of
a foreign thenable are all skipped, leaving the machine unchanged. -/
theorem foreign_foldl_skip (fuel : Nat) (i l : Nat) :
    ∀ (script : List (FTag × Val)) (mm : Machine), getLatch mm l = true →
    script.foldl
      (fun mm ev =>
        if getLatch mm l then mm
        else
          match ev.1 with
          | .callSuccess =>
            exec fuel (setLatch mm l) (.complete (some i) true ev.2)
          | .callError =>
            exec fuel (setLatch mm l) (.complete (some i) false ev.2)
          | .thenThrew =>
            exec fuel (setLatch mm l) (.complete (some i) false ev.2))
      mm = mm := by
  intro script
  induction script with
  | nil => intro mm _; rfl
  | cons ev rest ih =>
    intro mm h
    rw [List.foldl_cons]
    simp only [h, if_true]
    exact ih mm h

/-! ## Interpreter equation lemmas (one interpreter step, by fuel) -/

theorem exec_complete (fuel : Nat) (m : Machine) (t : Option Nat) (ws : Bool)
    (v : Val) :
    exec (fuel + 1) m (.complete t ws v) = completeB (exec fuel) m t ws v := rfl

theorem exec_callNext (fuel : Nat) (m : Machine) (parent : Nat)
    (tc : Reaction) :
    exec (fuel + 1) m (.callNext parent tc) =
      callNextB (exec fuel) m parent tc := rfl

theorem exec_addCallbacks (fuel : Nat) (m : Machine) (i : Nat)
    (tc : Reaction) :
    exec (fuel + 1) m (.addCallbacks i tc) =
      addCallbacksB (exec fuel) m i tc := rfl

theorem exec_attachTo (fuel : Nat) (m : Machine) (i : Nat) (v : Val) :
    exec (fuel + 1) m (.attachTo i v) = attachToB (exec fuel) m i v := rfl

theorem exec_runTask (fuel : Nat) (m : Machine) :
    exec (fuel + 1) m .runTask = runTaskB (exec fuel) m := rfl

/-! ## Claim theorems -/

/-- C1: once a promise is settled, every later settlement call (`resolve`
or `reject`, both running `complete`) returns with the machine unchanged —
no state change, no value change, no task queued, no error raised. -/
theorem complete_second_call_ignored (fuel : Nat) (m : Machine) (i : Nat)
    (p : PromiseObj) (b : Bool) (ws : Bool) (v : Val)
    (hp : getP m i = some p) (hs : p.state = some b) :
    exec (fuel + 1) m (.complete (some i) ws v) = m := by
  show completeB (exec fuel) m (some i) ws v = m
  simp [completeB, hp, hs]

/-- Witness for C1: settling the already-fulfilled promise again, with a
different kind and value, leaves the machine untouched. -/
theorem complete_second_call_ignored_witness :
    exec 5 exm1 (.complete (some 0) false (.num 3)) = exm1 :=
  complete_second_call_ignored 4 exm1 0 ⟨some true, .num 7, []⟩ true false
    (.num 3) rfl rfl

/-- C4: settling any pending promise with itself as payload commits a
rejection whose reason is the descriptive `TypeError`, for any settlement
kind and regardless of the machine's other contents; the constant fuel
bound shows there is no recursion into the payload at all. -/
theorem resolve_self_rejects_with_typeerror (fuel : Nat) (m : Machine)
    (i : Nat) (p : PromiseObj) (ws : Bool)
    (hp : getP m i = some p) (hs : p.state = none) :
    stateData (exec (fuel + 1) m (.complete (some i) ws (.promiseRef i))) i =
      some (some false,
        .typeError "Can not resolve a promise with itself") := by
  show stateData (completeB (exec fuel) m (some i) ws (.promiseRef i)) i = _
  have hsg : selfGuard i ws (.promiseRef i) =
      (false, Val.typeError "Can not resolve a promise with itself") := by
    unfold selfGuard isSelf
    simp
  simp only [completeB, hp, hs, hsg, Option.isSome_none, Bool.false_eq_true,
    if_false, getThen]
  exact commitB_stateData fuel m i p false _ hp

/-- Witness for C4: resolving a fresh pending promise with itself rejects
it with the `TypeError`. -/
theorem resolve_self_rejects_with_typeerror_witness :
    stateData (exec 3 exm2 (.complete (some 0) true (.promiseRef 0))) 0 =
      some (some false,
        .typeError "Can not resolve a promise with itself") :=
  resolve_self_rejects_with_typeerror 2 exm2 0 newPromiseObj true rfl rfl

/-- C8 (amended): registering a reaction whose callback matching the
terminal state was not supplied (the matching slot holds no function)
propagates the parent's outcome kind and value unchanged to the freshly
created downstream promise of `then`, provided the parent's settled value
is not itself a thenable.  (A thenable settled value is reachable only for
rejections whose reason was a thenable thrown by a `then` getter; there the
pass-through's `complete` re-runs the adoption on the reason instead of
propagating the rejection — see the counterexample.) -/
theorem passthrough_propagates_outcome (fuel : Nat) (m : Machine) (i : Nat)
    (p : PromiseObj) (b : Bool) (onS onE : Option CbK)
    (hp : getP m i = some p) (hs : p.state = some b)
    (hnt : getThen p.data = .ok false)
    (hmatch : (if b then onS else onE) = none) :
    stateData (thenMethod (fuel + 3) m i onS onE).1
      (thenMethod (fuel + 3) m i onS onE).2 = some (some b, p.data) := by
  have hja : getP { m with heap := m.heap ++ [newPromiseObj] } i = some p :=
    getP_heapAppend hp [newPromiseObj]
  have hne : i ≠ m.heap.length := Nat.ne_of_lt (getP_lt hp)
  have h3 : fuel + 3 = (fuel + 2) + 1 := rfl
  have h2 : fuel + 2 = (fuel + 1) + 1 := rfl
  simp only [thenMethod]
  rw [h3, exec_addCallbacks]
  simp only [addCallbacksB, hja, hs, Option.isSome_some, if_true]
  rw [h2, exec_callNext]
  have hgb : getP
      (setP { m with heap := m.heap ++ [newPromiseObj] } i
        ⟨some b, p.data, p.thenCallArray ++ [⟨onS, onE, some m.heap.length⟩]⟩) i =
      some ⟨some b, p.data,
        p.thenCallArray ++ [⟨onS, onE, some m.heap.length⟩]⟩ :=
    getP_setP_self hja _
  simp only [callNextB, hgb, stBool_some, hmatch]
  rw [exec_complete]
  have hd : getP
      (setP { m with heap := m.heap ++ [newPromiseObj] } i
        ⟨some b, p.data, p.thenCallArray ++ [⟨onS, onE, some m.heap.length⟩]⟩)
      m.heap.length = some newPromiseObj := by
    rw [getP_setP_ne hne]
    exact List.getElem?_concat_length _ _
  have hsg : selfGuard m.heap.length b p.data = (b, p.data) := by
    unfold selfGuard
    rw [isSelf_of_getThen_false _ hnt]
    simp
  simp only [completeB, hd, hsg, hnt]
  exact commitB_stateData fuel _ _ newPromiseObj b p.data hd

/-- Witness for C8: registering only a failure handler on a promise
fulfilled with 7 produces a downstream promise fulfilled with 7. -/
theorem passthrough_propagates_outcome_witness :
    stateData
      (thenMethod 5 exm1 0 none (some (.user (fun v => Except.ok v)))).1
      (thenMethod 5 exm1 0 none (some (.user (fun v => Except.ok v)))).2 =
      some (some true, .num 7) :=
  passthrough_propagates_outcome 2 exm1 0 ⟨some true, .num 7, []⟩ true none
    (some (.user (fun v => Except.ok v))) rfl rfl rfl rfl

/-- Counterexample to C8 as stated: a promise can be committed rejected
with a thenable as its data (first conjunct: one settlement call whose
value has a `then` getter throwing a thenable reaches that state), and a
pass-through reaction on such a parent — no callback supplied at all —
leaves the downstream promise FULFILLED with 42 (second conjunct) instead
of rejected with the parent's reason unchanged (third conjunct): the
pass-through's `complete` re-adopts the thenable reason. -/
theorem passthrough_thenable_reason_counterexample :
    stateData (exec 9 ⟨[newPromiseObj], [], [], []⟩
        (.complete (some 0) true (.badThen (.foreign [(.callSuccess, .num 42)])))) 0 =
      some (some false, .foreign [(.callSuccess, .num 42)]) ∧
    stateData (thenMethod 9 exm4 0 none none).1
      (thenMethod 9 exm4 0 none none).2 = some (some true, .num 42) ∧
    (some ((some true : Option Bool), Val.num 42) :
        Option (Option Bool × Val)) ≠
      some (some false, Val.foreign [(FTag.callSuccess, Val.num 42)]) := by
  refine ⟨rfl, rfl, ?_⟩
  simp

/-- Once the latch is set, no further scripted invocation forwards
anything. -/
theorem doubleCheckFold_latched :
    ∀ evs : List (FTag × Val), doubleCheckFold true evs = [] := by
  intro evs
  induction evs with
  | nil => rfl
  | cons e rest ih => exact ih

/-- C9: for any behaviour of a foreign thenable's registration capability —
callbacks invoked in any order, any number of times, a throw before or
after them — the `wasCalled` latch forwards exactly the first invocation
(or the first thrown error when nothing fired before it), and running the
adoption against a pending promise commits exactly that first outcome,
whatever invocations follow. -/
theorem attach_first_forwarded_outcome_wins (fuel : Nat) (m : Machine)
    (j : Nat) (p : PromiseObj) (tag : FTag) (v : Val)
    (rest : List (FTag × Val)) (hp : getP m j = some p)
    (hs : p.state = none) (hnt : getThen v = .ok false) :
    (attachToCalls [] = [] ∧
      ∀ tag2 v2 rest2,
        attachToCalls ((tag2, v2) :: rest2) = [tagOutcome tag2 v2]) ∧
    stateData
      (exec (fuel + 2) m (.attachTo j (.foreign ((tag, v) :: rest)))) j =
      some (some (tagOutcome tag v).1, v) := by
  constructor
  · exact ⟨rfl, fun tag2 v2 rest2 => by
      show tagOutcome tag2 v2 :: doubleCheckFold true rest2 = [tagOutcome tag2 v2]
      rw [doubleCheckFold_latched]⟩
  · have h2 : fuel + 2 = (fuel + 1) + 1 := rfl
    rw [h2, exec_attachTo]
    simp only [attachToB]
    rw [List.foldl_cons]
    simp only [getLatch_alloc, Bool.false_eq_true, if_false]
    have hpj : getP (setLatch { m with latches := m.latches ++ [false] }
        m.latches.length) j = some p := hp
    have hsg : ∀ ws : Bool, selfGuard j ws v = (ws, v) := by
      intro ws
      unfold selfGuard
      rw [isSelf_of_getThen_false _ hnt]
      simp
    have hlatch : ∀ ws : Bool,
        getLatch (commitB (exec fuel)
          (setLatch { m with latches := m.latches ++ [false] }
            m.latches.length) j p ws v) m.latches.length = true :=
      fun ws => commitB_latch fuel _ j p ws v (getLatch_alloc_set m)
    cases tag with
    | callSuccess =>
      dsimp only
      rw [exec_complete]
      simp only [completeB, hpj, hs, Option.isSome_none, Bool.false_eq_true,
        if_false, hsg true, hnt]
      rw [foreign_foldl_skip (fuel + 1) j m.latches.length rest _ (hlatch true)]
      exact commitB_stateData fuel _ j p true v hpj
    | callError =>
      dsimp only
      rw [exec_complete]
      simp only [completeB, hpj, hs, Option.isSome_none, Bool.false_eq_true,
        if_false, hsg false, hnt]
      rw [foreign_foldl_skip (fuel + 1) j m.latches.length rest _ (hlatch false)]
      exact commitB_stateData fuel _ j p false v hpj
    | thenThrew =>
      dsimp only
      rw [exec_complete]
      simp only [completeB, hpj, hs, Option.isSome_none, Bool.false_eq_true,
        if_false, hsg false, hnt]
      rw [foreign_foldl_skip (fuel + 1) j m.latches.length rest _ (hlatch false)]
      exact commitB_stateData fuel _ j p false v hpj

/-- Witness for C9: a foreign thenable that fulfills with 5 and then also
tries to reject settles the adopting promise fulfilled with 5. -/
theorem attach_first_forwarded_outcome_wins_witness :
    ((attachToCalls [] = [] ∧
      ∀ tag2 v2 rest2,
        attachToCalls ((tag2, v2) :: rest2) = [tagOutcome tag2 v2]) ∧
    stateData
      (exec 4 exm2 (.attachTo 0
        (.foreign [(.callSuccess, .num 5), (.callError, .str "x")]))) 0 =
      some (some (tagOutcome .callSuccess (.num 5)).1, .num 5)) :=
  attach_first_forwarded_outcome_wins 2 exm2 0 newPromiseObj .callSuccess
    (.num 5) [(.callError, .str "x")] rfl rfl rfl

/-- C3 (code bug): `complete` probes the payload for a callable `then`
regardless of the settlement kind, so rejecting a pending promise with a
thenable reason adopts the thenable instead of rejecting with it: here
`reject(p, thenableFulfillingWith42)` leaves the promise FULFILLED with 42,
where the Promises/A+ contract the library ships tests for (and its badge
claims) requires a rejection carrying the thenable itself. -/
theorem reject_with_thenable_adopts_it :
    stateData (exec 6 exm2 (.complete (some 0) false
      (.foreign [(.callSuccess, .num 42)]))) 0 = some (some true, .num 42) :=
  rfl

/-- C5 (code bug): `when` applied to an empty collection resolves the
aggregate with `undefined` (it resolves `this.successResults`, a property
never assigned on the promise, instead of the local `successResults`
array), while `after` applied to an empty collection resolves with the
empty array as specified. -/
theorem when_empty_resolves_undefined_after_empty_resolves_empty :
    whenCalls [] [] = [(true, Val.undef)] ∧
    afterCalls [] [] = [AfterSettle.res []] :=
  ⟨rfl, rfl⟩

/-- Counterexample to C6 as stated: two thenable members that both succeed,
with the second member's value arriving first, make the `when` aggregate
resolve with the values in arrival order `[2, 1]`, not in original-index
order `[1, 2]`. -/
theorem when_fulfills_by_index_counterexample :
    whenCalls [.promiseRef 0, .promiseRef 1]
        [⟨1, true, .num 2⟩, ⟨0, true, .num 1⟩] =
      [(true, Val.arr [.num 2, .num 1])] ∧
    whenCalls [.promiseRef 0, .promiseRef 1]
        [⟨1, true, .num 2⟩, ⟨0, true, .num 1⟩] ≠
      [(true, Val.arr [.num 1, .num 2])] := by
  refine ⟨rfl, ?_⟩
  intro h
  have h' : [(true, Val.arr [Val.num 2, Val.num 1])] =
      [(true, Val.arr [Val.num 1, Val.num 2])] := h
  simp only [List.cons.injEq, Prod.mk.injEq, Val.arr.injEq, Val.num.injEq,
    and_true, true_and] at h'
  omega

/-- C10: calling the constructor as a plain function returns a fresh
pending promise — `state` null, no reactions, allocated at an index that
holds no existing promise and is distinct from every existing one, leaving
every existing promise untouched. -/
theorem constructor_as_function_fresh_pending (m : Machine) (j : Nat)
    (p : PromiseObj) (hj : getP m j = some p) :
    getP (FidPromiseAsFunction m).1 (FidPromiseAsFunction m).2 =
      some newPromiseObj ∧
    newPromiseObj.state = none ∧
    newPromiseObj.thenCallArray = [] ∧
    getP m (FidPromiseAsFunction m).2 = none ∧
    (FidPromiseAsFunction m).2 ≠ j ∧
    getP (FidPromiseAsFunction m).1 j = some p := by
  refine ⟨?_, rfl, rfl, ?_, ?_, ?_⟩
  · exact List.getElem?_concat_length _ _
  · exact List.getElem?_eq_none (le_refl _)
  · exact (getP_lt hj).ne'
  · exact getP_heapAppend hj [newPromiseObj]

/-- Witness for C10 on a machine holding one settled promise. -/
theorem constructor_as_function_fresh_pending_witness :
    (getP (FidPromiseAsFunction exm1).1 (FidPromiseAsFunction exm1).2 =
      some newPromiseObj ∧
    newPromiseObj.state = none ∧
    newPromiseObj.thenCallArray = [] ∧
    getP exm1 (FidPromiseAsFunction exm1).2 = none ∧
    (FidPromiseAsFunction exm1).2 ≠ 0 ∧
    getP (FidPromiseAsFunction exm1).1 0 = some ⟨some true, .num 7, []⟩) :=
  constructor_as_function_fresh_pending exm1 0 ⟨some true, .num 7, []⟩ rfl

/-- C2: neither a settlement (`complete`) nor a registration
(`addCallbacks`) ever invokes a reaction callback inline — the invocation
log is untouched for any fuel, machine and arguments, so a reaction
registered on an already-terminal promise is not invoked before the
registering call returns; an invocation happens exactly when the queued
task runs, which appends the parent and argument to the log. -/
theorem callbacks_dispatch_only_on_task_queue :
    (∀ fuel m t ws v, (exec fuel m (.complete t ws v)).log = m.log) ∧
    (∀ fuel m i tc, (exec fuel m (.addCallbacks i tc)).log = m.log) ∧
    (∀ fuel m cb parent nx rest p,
      m.tasks = Task.mk cb parent nx :: rest → getP m parent = some p →
      (exec (fuel + 1) m .runTask).log = m.log ++ [(parent, p.data)]) := by
  refine ⟨?_, ?_, ?_⟩
  · intro fuel m t ws v
    exact exec_log fuel m _ rfl
  · intro fuel m i tc
    exact exec_log fuel m _ rfl
  · intro fuel m cb parent nx rest p htasks hp
    rw [exec_runTask]
    unfold runTaskB
    rw [htasks]
    dsimp only
    rw [hp]
    dsimp only
    cases cb with
    | user f =>
      dsimp only
      split
      next v hv =>
        rw [exec_log fuel _ (.complete nx true v) rfl]
      next e he =>
        rw [exec_log fuel _ (.complete nx false e) rfl]
    | adoptResolve l tgt =>
      by_cases hl : getLatch m l
      · simp only [hl, if_true]
        rw [exec_log fuel _ (.complete nx true .undef) rfl]
      · simp only [hl, Bool.false_eq_true, if_false]
        rw [exec_log fuel _ (.complete nx true .undef) rfl,
          exec_log fuel _ (.complete (some tgt) true p.data) rfl]
        rfl
    | adoptReject l tgt =>
      by_cases hl : getLatch m l
      · simp only [hl, if_true]
        rw [exec_log fuel _ (.complete nx true .undef) rfl]
      · simp only [hl, Bool.false_eq_true, if_false]
        rw [exec_log fuel _ (.complete nx true .undef) rfl,
          exec_log fuel _ (.complete (some tgt) false p.data) rfl]
        rfl

/-- Witness for C2: running the single queued task of a machine whose
promise is fulfilled with 7 logs exactly that invocation. -/
theorem callbacks_dispatch_only_on_task_queue_witness :
    (exec 3 ⟨[⟨some true, .num 7, []⟩],
        [⟨.user (fun v => Except.ok v), 0, none⟩], [], []⟩ .runTask).log =
      [] ++ [(0, .num 7)] :=
  callbacks_dispatch_only_on_task_queue.2.2 2
    ⟨[⟨some true, .num 7, []⟩], [⟨.user (fun v => Except.ok v), 0, none⟩],
      [], []⟩
    (.user (fun v => Except.ok v)) 0 none [] ⟨some true, .num 7, []⟩ rfl rfl

/-! ## Sparse array lemmas -/

theorem lookupSparse_setSparse_self : ∀ (i : Nat) (l : List (Option Val))
    (v : Val), lookupSparse (setSparse l i v) i = some v := by
  intro i
  induction i with
  | zero =>
    intro l v
    cases l <;> rfl
  | succ n ih =>
    intro l v
    cases l with
    | nil => exact ih [] v
    | cons x xs => exact ih xs v

theorem lookupSparse_setSparse_ne : ∀ (i : Nat) (j : Nat)
    (l : List (Option Val)) (v : Val), i ≠ j →
    lookupSparse (setSparse l i v) j = lookupSparse l j := by
  intro i
  induction i with
  | zero =>
    intro j l v hne
    cases l with
    | nil =>
      cases j with
      | zero => exact absurd rfl hne
      | succ k => rfl
    | cons x xs =>
      cases j with
      | zero => exact absurd rfl hne
      | succ k => rfl
  | succ n ih =>
    intro j l v hne
    cases l with
    | nil =>
      cases j with
      | zero => rfl
      | succ k => exact ih k [] v (fun h => hne (by rw [h]))
    | cons x xs =>
      cases j with
      | zero => rfl
      | succ k => exact ih k xs v (fun h => hne (by rw [h]))

theorem applySets_lookup_other :
    ∀ (as : List Arrival) (l : List (Option Val)) (i : Nat),
      (∀ x ∈ as, x.index ≠ i) →
      lookupSparse (applySets as l) i = lookupSparse l i := by
  intro as
  induction as with
  | nil => intro l i _; rfl
  | cons b rest ih =>
    intro l i hni
    show lookupSparse
      (applySets rest
        (if b.success && !b.value.isUndef then setSparse l b.index b.value
         else l)) i = lookupSparse l i
    rw [ih _ i (fun x hx => hni x (List.mem_cons_of_mem b hx))]
    by_cases hb : b.success && !b.value.isUndef
    · rw [if_pos hb]
      exact lookupSparse_setSparse_ne _ _ _ _
        (hni b (List.mem_cons_self b rest))
    · rw [if_neg hb]

theorem applySets_lookup :
    ∀ (as : List Arrival) (l : List (Option Val)),
      (as.map Arrival.index).Nodup →
      ∀ a ∈ as, a.success = true → a.value.isUndef = false →
        lookupSparse (applySets as l) a.index = some a.value := by
  intro as
  induction as with
  | nil => intro l _ a ha; cases ha
  | cons b rest ih =>
    intro l hnd a ha hsu hud
    have hnd' := hnd
    rw [List.map_cons, List.nodup_cons] at hnd'
    rcases List.mem_cons.mp ha with hab | harest
    · subst hab
      show lookupSparse
        (applySets rest
          (if a.success && !a.value.isUndef then setSparse l a.index a.value
           else l)) a.index = some a.value
      rw [hsu, hud]
      simp only [Bool.not_false, Bool.and_true, if_true]
      rw [applySets_lookup_other rest _ a.index
        (fun x hx h => hnd'.1 (h ▸ List.mem_map_of_mem Arrival.index hx))]
      exact lookupSparse_setSparse_self _ _ _
    · exact ih _ hnd'.2 a harest hsu hud

/-! ## `when` fold lemma and the amended C6 -/

theorem whenFold_all_success :
    ∀ (as : List Arrival) (w : Int) (res : List Val)
      (cs : List (Bool × Val)),
      (∀ a ∈ as, a.success = true) → w = as.length → as ≠ [] →
      (as.foldl whenStep ⟨w, res, cs⟩).calls =
        cs ++ [(true, Val.arr (res ++ collectWhen as))] := by
  intro as
  induction as with
  | nil => intro w res cs _ _ hne; exact absurd rfl hne
  | cons a rest ih =>
    intro w res cs hsucc hw hne
    have ha : a.success = true := hsucc a (List.mem_cons_self a rest)
    have hw1 : w - 1 = (rest.length : Int) := by
      rw [hw, List.length_cons]
      push_cast
      ring
    have hcw : collectWhen (a :: rest) =
        (if a.value.isUndef then [] else [a.value]) ++ collectWhen rest := by
      unfold collectWhen
      cases hu : a.value.isUndef <;> simp [List.filter_cons, hu]
    rw [List.foldl_cons]
    by_cases hrest : rest = []
    · subst hrest
      have hz : w - 1 = 0 := by rw [hw1]; rfl
      cases hu : a.value.isUndef with
      | true =>
        have hstep : whenStep ⟨w, res, cs⟩ a =
            ⟨0, res, cs ++ [(true, Val.arr res)]⟩ := by
          unfold whenStep
          simp [ha, hu, hz]
        rw [hstep]
        show cs ++ [(true, Val.arr res)] =
          cs ++ [(true, Val.arr (res ++ collectWhen [a]))]
        rw [hcw]
        simp [hu, collectWhen]
      | false =>
        have hstep : whenStep ⟨w, res, cs⟩ a =
            ⟨0, res ++ [a.value],
              cs ++ [(true, Val.arr (res ++ [a.value]))]⟩ := by
          unfold whenStep
          simp [ha, hu, hz]
        rw [hstep]
        show cs ++ [(true, Val.arr (res ++ [a.value]))] =
          cs ++ [(true, Val.arr (res ++ collectWhen [a]))]
        rw [hcw]
        simp [hu, collectWhen]
    · have hlz : rest.length ≠ 0 := fun h => hrest (List.length_eq_zero.mp h)
      have hnz : ¬(w - 1 = 0) := by
        rw [hw1]
        exact Int.natCast_ne_zero.mpr hlz
      have hsucc' : ∀ x ∈ rest, x.success = true :=
        fun x hx => hsucc x (List.mem_cons_of_mem a hx)
      cases hu : a.value.isUndef with
      | true =>
        have hstep : whenStep ⟨w, res, cs⟩ a = ⟨w - 1, res, cs⟩ := by
          unfold whenStep
          simp [ha, hu, hnz]
        rw [hstep, ih (w - 1) res cs hsucc' hw1 hrest, hcw]
        simp [hu]
      | false =>
        have hstep : whenStep ⟨w, res, cs⟩ a =
            ⟨w - 1, res ++ [a.value], cs⟩ := by
          unfold whenStep
          simp [ha, hu, hnz]
        rw [hstep, ih (w - 1) (res ++ [a.value]) cs hsucc' hw1 hrest, hcw]
        simp [hu]

/-- C6 (amended): when every thenable member succeeds, the `when` aggregate
resolves exactly once, with the array of collected values in the order the
successes arrive (each success appends its value; `undefined` results are
skipped), not at the members' original indices. -/
theorem when_all_success_fulfills_in_arrival_order (members : List Val)
    (arrivals : List Arrival)
    (hsucc : ∀ a ∈ arrivals, a.success = true)
    (hlen : (arrivals.length : Int) = countThenable members)
    (hne : arrivals ≠ []) :
    whenCalls members arrivals = [(true, Val.arr (collectWhen arrivals))] := by
  have hn0 : ¬(countThenable members = 0) := by
    rw [← hlen]
    simp only [Int.natCast_eq_zero, List.length_eq_zero]
    exact hne
  unfold whenCalls
  simp only [hn0, if_false, List.nil_append]
  rw [← hlen]
  rw [whenFold_all_success arrivals _ [] [] hsucc rfl hne]
  rfl

/-- Witness for the amended C6: both members succeed, the second member's
value arrives first, and the aggregate resolves with `[2, 1]`. -/
theorem when_all_success_fulfills_in_arrival_order_witness :
    whenCalls [.promiseRef 0, .promiseRef 1]
        [⟨1, true, .num 2⟩, ⟨0, true, .num 1⟩] =
      [(true, Val.arr (collectWhen [⟨1, true, .num 2⟩, ⟨0, true, .num 1⟩]))] :=
  when_all_success_fulfills_in_arrival_order
    [.promiseRef 0, .promiseRef 1]
    [⟨1, true, .num 2⟩, ⟨0, true, .num 1⟩]
    (by decide) (by decide) (List.cons_ne_nil _ _)

/-! ## `after` fold lemmas and C7 -/

theorem afterFold_pending :
    ∀ (as : List Arrival) (s : AfterState),
      s.calls = [] → (as.length : Int) < s.waitingFor →
      (as.foldl afterStep s).calls = [] := by
  intro as
  induction as with
  | nil => intro s hc _; exact hc
  | cons a rest ih =>
    intro s hc hlt
    rw [List.length_cons] at hlt
    push_cast at hlt
    have hnz : ¬(s.waitingFor - 1 = 0) := by omega
    rw [List.foldl_cons]
    apply ih
    · unfold afterStep afterCheckCount
      cases ha : a.success <;> simp [ha, hnz, hc]
    · have hwf : (afterStep s a).waitingFor = s.waitingFor - 1 := by
        unfold afterStep afterCheckCount
        cases ha : a.success <;> simp [ha, hnz]
      rw [hwf]
      omega

theorem afterFold_run :
    ∀ (as : List Arrival) (w : Int) (es : Bool) (sr : List (Option Val))
      (fr : List Val),
      w = as.length → as ≠ [] →
      (as.foldl afterStep ⟨w, es, sr, fr, []⟩).calls =
        [if es && as.all (fun a => a.success) then
            AfterSettle.res (applySets as sr)
         else AfterSettle.rej (fr ++ afterFails as)] := by
  intro as
  induction as with
  | nil => intro w es sr fr _ hne; exact absurd rfl hne
  | cons a rest ih =>
    intro w es sr fr hw hne
    have hw1 : w - 1 = (rest.length : Int) := by
      rw [hw, List.length_cons]
      push_cast
      ring
    rw [List.foldl_cons]
    by_cases hrest : rest = []
    · subst hrest
      have hz : w - 1 = 0 := by rw [hw1]; rfl
      cases ha : a.success with
      | true =>
        cases hu : a.value.isUndef with
        | true =>
          have hstep : afterStep ⟨w, es, sr, fr, []⟩ a =
              ⟨0, es, sr, fr,
                [if es then AfterSettle.res sr else AfterSettle.rej fr]⟩ := by
            unfold afterStep afterCheckCount
            simp [ha, hu, hz]
          rw [hstep]
          show [if es then AfterSettle.res sr else AfterSettle.rej fr] = _
          simp [List.all_cons, ha, applySets, afterFails, hu]
        | false =>
          have hstep : afterStep ⟨w, es, sr, fr, []⟩ a =
              ⟨0, es, setSparse sr a.index a.value, fr,
                [if es then AfterSettle.res (setSparse sr a.index a.value)
                 else AfterSettle.rej fr]⟩ := by
            unfold afterStep afterCheckCount
            simp [ha, hu, hz]
          rw [hstep]
          show [if es then AfterSettle.res (setSparse sr a.index a.value)
            else AfterSettle.rej fr] = _
          simp [List.all_cons, ha, applySets, afterFails, hu]
      | false =>
        have hstep : afterStep ⟨w, es, sr, fr, []⟩ a =
            ⟨0, false, sr, fr ++ [a.value],
              [AfterSettle.rej (fr ++ [a.value])]⟩ := by
          unfold afterStep afterCheckCount
          simp [ha, hz]
        rw [hstep]
        show [AfterSettle.rej (fr ++ [a.value])] = _
        simp [List.all_cons, ha, afterFails]
    · have hlz : rest.length ≠ 0 := fun h => hrest (List.length_eq_zero.mp h)
      have hnz : ¬(w - 1 = 0) := by
        rw [hw1]
        exact Int.natCast_ne_zero.mpr hlz
      have hall : (a :: rest).all (fun x => x.success) =
          (a.success && rest.all (fun x => x.success)) := by
        simp [List.all_cons]
      cases ha : a.success with
      | true =>
        cases hu : a.value.isUndef with
        | true =>
          have hstep : afterStep ⟨w, es, sr, fr, []⟩ a =
              ⟨w - 1, es, sr, fr, []⟩ := by
            unfold afterStep afterCheckCount
            simp [ha, hu, hnz]
          have hap : applySets (a :: rest) sr = applySets rest sr := by
            unfold applySets
            rw [List.foldl_cons]
            simp [ha, hu]
          have haf : afterFails (a :: rest) = afterFails rest := by
            unfold afterFails
            simp [List.filter_cons, ha]
          rw [hstep, ih (w - 1) es sr fr hw1 hrest, hall, hap, haf]
          simp [ha]
        | false =>
          have hstep : afterStep ⟨w, es, sr, fr, []⟩ a =
              ⟨w - 1, es, setSparse sr a.index a.value, fr, []⟩ := by
            unfold afterStep afterCheckCount
            simp [ha, hu, hnz]
          have hap : applySets (a :: rest) sr =
              applySets rest (setSparse sr a.index a.value) := by
            unfold applySets
            rw [List.foldl_cons]
            simp [ha, hu]
          have haf : afterFails (a :: rest) = afterFails rest := by
            unfold afterFails
            simp [List.filter_cons, ha]
          rw [hstep, ih (w - 1) es (setSparse sr a.index a.value) fr hw1 hrest,
            hall, hap, haf]
          simp [ha]
      | false =>
        have hstep : afterStep ⟨w, es, sr, fr, []⟩ a =
            ⟨w - 1, false, sr, fr ++ [a.value], []⟩ := by
          unfold afterStep afterCheckCount
          simp [ha, hnz]
        have haf : afterFails (a :: rest) = a.value :: afterFails rest := by
          unfold afterFails
          simp [List.filter_cons, ha]
        rw [hstep, ih (w - 1) false sr (fr ++ [a.value]) hw1 hrest, hall, haf]
        simp [ha, List.append_assoc]

/-- C7: the `after` aggregate settles exactly once, only when its pending
counter reaches zero (no proper prefix of the member settlements makes it
settle); it then rejects with the list of all failure reasons in arrival
order when any member failed, and otherwise resolves with the success
values stored at the members' original input indices. -/
theorem after_settles_once_with_all_outcomes (members : List Val)
    (arrivals : List Arrival)
    (hlen : (arrivals.length : Int) = countThenable members)
    (hnd : (arrivals.map Arrival.index).Nodup) :
    (∀ k, k < arrivals.length →
      afterCalls members (arrivals.take k) = []) ∧
    (arrivals.all (fun a => a.success) = true →
      ∃ sr, afterCalls members arrivals = [AfterSettle.res sr] ∧
        ∀ a ∈ arrivals, a.value.isUndef = false →
          lookupSparse sr a.index = some a.value) ∧
    (arrivals.all (fun a => a.success) = false →
      afterCalls members arrivals =
        [AfterSettle.rej (afterFails arrivals)]) := by
  by_cases hemp : arrivals = []
  · subst hemp
    refine ⟨?_, ?_, ?_⟩
    · intro k hk
      exact absurd hk (Nat.not_lt_zero k)
    · intro _
      refine ⟨[], ?_, ?_⟩
      · unfold afterCalls afterCheckCount
        rw [← hlen]
        simp [applySets]
      · intro a ha
        cases ha
    · intro hall
      cases hall
  · have hlz : arrivals.length ≠ 0 := fun h => hemp (List.length_eq_zero.mp h)
    have hn0 : ¬(countThenable members = 0) := by
      rw [← hlen]
      exact Int.natCast_ne_zero.mpr hlz
    have hinit : afterCheckCount ⟨countThenable members, true, [], [], []⟩ =
        ⟨countThenable members, true, [], [], []⟩ := by
      unfold afterCheckCount
      simp [hn0]
    refine ⟨?_, ?_, ?_⟩
    · intro k hk
      unfold afterCalls
      rw [hinit]
      apply afterFold_pending
      · rfl
      · show ((arrivals.take k).length : Int) < countThenable members
        rw [← hlen, List.length_take]
        push_cast
        omega
    · intro hall
      refine ⟨applySets arrivals [], ?_, ?_⟩
      · unfold afterCalls
        rw [hinit, ← hlen,
          afterFold_run arrivals _ true [] [] rfl hemp]
        simp [hall]
      · intro a ha hud
        exact applySets_lookup arrivals [] hnd a ha
          (List.all_eq_true.mp hall a ha) hud
    · intro hall
      unfold afterCalls
      rw [hinit, ← hlen,
        afterFold_run arrivals _ true [] [] rfl hemp]
      simp [hall]

/-- Witness for C7: two members that reject with distinct reasons make the
aggregate reject with both reasons, in arrival order. -/
theorem after_settles_once_with_all_outcomes_witness :
    afterCalls [.promiseRef 0, .promiseRef 1]
        [⟨0, false, .str "e1"⟩, ⟨1, false, .str "e2"⟩] =
      [AfterSettle.rej
        (afterFails [⟨0, false, .str "e1"⟩, ⟨1, false, .str "e2"⟩])] :=
  (after_settles_once_with_all_outcomes
    [.promiseRef 0, .promiseRef 1]
    [⟨0, false, .str "e1"⟩, ⟨1, false, .str "e2"⟩]
    (by decide) (by decide)).2.2 rfl

end FidPromise
